import Mathlib

/-!
Verification development for the `hello-world.dev` real-time conversation
pipeline.  Shallow Lean embeddings of:

* `RingBuffer` from `src/hello_world/providers/stt/whisperkit.py`
* `InterruptionHandler` from `src/hello_world/utils/interruption_handler.py`
* `MetricsCollector._calculate_latency_stats` from `src/hello_world/metrics/collector.py`
* `ConversationManager` state transitions from `src/hello_world/core/conversation_manager.py`

Audio samples are modelled as integers (the code moves `float32` samples
without arithmetic on them); latencies and energies are modelled as exact
rationals standing for the Python floats.
-/

namespace HelloWorld


/-! ## RingBuffer (whisperkit.py lines 23-87) -/

/-- Helper for the numpy slice assignment `data[start:start+len(vals)] = vals`
used by `RingBuffer.write`. -/
def setSeg (d : List ℤ) (start : ℕ) (vals : List ℤ) : List ℤ :=
  d.take start ++ vals ++ d.drop (start + vals.length)

structure RingBuffer where
  size : ℕ
  data : List ℤ
  write_pos : ℕ
  read_pos : ℕ
deriving DecidableEq

/-- Constructor `RingBuffer.__init__`: `data = np.zeros(size)`, both positions 0. -/
def RingBuffer.mk0 (size : ℕ) : RingBuffer :=
  ⟨size, List.replicate size 0, 0, 0⟩

/-- The free-space computation at the top of `RingBuffer.write` (lines 36-40):
`if write_pos >= read_pos: available = size - write_pos + read_pos
 else: available = read_pos - write_pos`. -/
def RingBuffer.free_space (rb : RingBuffer) : ℕ :=
  if rb.write_pos ≥ rb.read_pos then rb.size - rb.write_pos + rb.read_pos
  else rb.read_pos - rb.write_pos

/-- The wraparound copy of `RingBuffer.write` (lines 46-52), for the samples
`w` that are actually written (`w = audio_data[:write_len]`):
if the segment fits it is one slice assignment, otherwise it is split at the
end of the array (`first_part = size - write_pos`) into two assignments. -/
def RingBuffer.writeData (rb : RingBuffer) (w : List ℤ) : List ℤ :=
  if rb.write_pos + w.length ≤ rb.size then
    setSeg rb.data rb.write_pos w
  else
    -- `first_part = size - write_pos` in the source
    setSeg (setSeg rb.data rb.write_pos (w.take (rb.size - rb.write_pos))) 0
      (w.drop (rb.size - rb.write_pos))

/-- `RingBuffer.write` (lines 33-55).  Returns the number of samples written
and the updated buffer. -/
def RingBuffer.write (rb : RingBuffer) (audio_data : List ℤ) : ℕ × RingBuffer :=
  let available := rb.free_space
  let write_len := min audio_data.length available
  if write_len = 0 then (0, rb)
  else
    (write_len,
      { rb with
        data := rb.writeData (audio_data.take write_len),
        write_pos := (rb.write_pos + write_len) % rb.size })

/-- The available-to-read computation shared by `read` and `available_read`
(lines 60-62 and 83-87). -/
def RingBuffer.available_read (rb : RingBuffer) : ℕ :=
  if rb.write_pos < rb.read_pos then rb.size - rb.read_pos + rb.write_pos
  else rb.write_pos - rb.read_pos

/-- `RingBuffer.read` (lines 57-79).  Returns the samples read and the updated
buffer. -/
def RingBuffer.read (rb : RingBuffer) (num_samples : ℕ) : List ℤ × RingBuffer :=
  let available := rb.available_read
  let read_len := min num_samples available
  if read_len = 0 then ([], rb)
  else
    let result :=
      if rb.read_pos + read_len ≤ rb.size then (rb.data.drop rb.read_pos).take read_len
      else rb.data.drop rb.read_pos ++ rb.data.take (read_len - (rb.size - rb.read_pos))
    (result, { rb with read_pos := (rb.read_pos + read_len) % rb.size })

/-- Well-formedness of a buffer state: positive capacity, in-range positions,
backing array of exactly `size` samples.  Holds for `mk0` and is preserved by
`write`/`read`. -/
def RingBuffer.WF (rb : RingBuffer) : Prop :=
  0 < rb.size ∧ rb.write_pos < rb.size ∧ rb.read_pos < rb.size ∧ rb.data.length = rb.size

instance (rb : RingBuffer) : Decidable rb.WF := by
  unfold RingBuffer.WF; infer_instance

/-- The unread samples, oldest first, as determined by the `read_pos`/`write_pos`
pair (the region `read` would deliver). -/
def RingBuffer.contents (rb : RingBuffer) : List ℤ :=
  if rb.write_pos < rb.read_pos then
    rb.data.drop rb.read_pos ++ rb.data.take rb.write_pos
  else
    (rb.data.drop rb.read_pos).take (rb.write_pos - rb.read_pos)

/-! ### Circular slices

`circSlice d start len size` is the list of samples at positions
`start, start+1, …, start+len-1` (mod `size`) of the backing array `d` —
written in the same two-segment form that `RingBuffer.read` uses.  Both
`contents` and the value assembled by `read` are circular slices. -/

def circSlice (d : List ℤ) (start len size : ℕ) : List ℤ :=
  if start + len ≤ size then (d.drop start).take len
  else d.drop start ++ d.take (len - (size - start))

/-! ### Sequences of buffer operations

A trace of interleaved writes and reads, run both against the concrete
`RingBuffer` and against an ideal FIFO queue of samples. -/

inductive BufOp where
  | write (xs : List ℤ)
  | read (n : ℕ)
deriving DecidableEq

/-- Run a trace against the ring buffer; collects everything the reads
returned, in order. -/
def runOps (rb : RingBuffer) : List BufOp → RingBuffer × List ℤ
  | [] => (rb, [])
  | BufOp.write xs :: rest => runOps (rb.write xs).2 rest
  | BufOp.read n :: rest =>
      let out := rb.read n
      let r := runOps out.2 rest
      (r.1, out.1 ++ r.2)

/-- Run the same trace against an ideal FIFO queue. -/
def runQueue (q : List ℤ) : List BufOp → List ℤ × List ℤ
  | [] => (q, [])
  | BufOp.write xs :: rest => runQueue (q ++ xs) rest
  | BufOp.read n :: rest =>
      let r := runQueue (q.drop n) rest
      (r.1, q.take n ++ r.2)

/-- The pending (written-but-unread) volume stays at or below the capacity at
every write — the bound exactly as the specification words it. -/
def safeRunLe (cap : ℕ) (q : List ℤ) : List BufOp → Bool
  | [] => true
  | BufOp.write xs :: rest =>
      decide (q.length + xs.length ≤ cap) && safeRunLe cap (q ++ xs) rest
  | BufOp.read n :: rest => safeRunLe cap (q.drop n) rest

/-- The pending volume stays strictly below the capacity at every write. -/
def safeRunLt (cap : ℕ) (q : List ℤ) : List BufOp → Bool
  | [] => true
  | BufOp.write xs :: rest =>
      decide (q.length + xs.length < cap) && safeRunLt cap (q ++ xs) rest
  | BufOp.read n :: rest => safeRunLt cap (q.drop n) rest

/-! ## Python `queue.Queue` -/

structure PyQueue (α : Type) where
  maxsize : ℕ
  items : List α
deriving DecidableEq

/-- `Queue()` — the default constructor call used for the three queues in
`ConversationManager.__init__` (conversation_manager.py lines 48-50):
`maxsize = 0`, which in Python means the queue is unbounded. -/
def PyQueue.mkDefault (α : Type) : PyQueue α := ⟨0, []⟩

/-- Blocking `Queue.put(item)` with no timeout: on an unbounded queue (or a
bounded queue with space) it appends; on a full bounded queue the call never
returns (modelled as `none`). -/
def PyQueue.put {α : Type} (q : PyQueue α) (x : α) : Option (PyQueue α) :=
  if 0 < q.maxsize ∧ q.maxsize ≤ q.items.length then none
  else some { q with items := q.items ++ [x] }

/-- `Queue.get_nowait()`: pops the oldest item, or raises `Empty` (`none`). -/
def PyQueue.get_nowait {α : Type} (q : PyQueue α) : Option (α × PyQueue α) :=
  match q.items with
  | [] => none
  | x :: rest => some (x, { q with items := rest })

/-- `Queue.qsize()`. -/
def PyQueue.qsize {α : Type} (q : PyQueue α) : ℕ := q.items.length

/-! ## Pipeline data types -/

/-- `Transcript` dataclass (providers/stt/base.py lines 8-17). -/
structure Transcript where
  text : String
  timestamp : ℚ
  is_final : Bool
  is_speech_start : Bool
  confidence : Option ℚ
  latency : Option ℚ
deriving DecidableEq

/-- `AIResponse` dataclass (providers/ai/base.py lines 8-15; the `metadata`
dict is irrelevant to the claims and omitted). -/
structure AIResponse where
  text : String
  is_first : Bool
  is_final : Bool
  full_text : Option String
deriving DecidableEq

/-! ## ConversationManager (core/conversation_manager.py)

The state the verified claims touch, plus instrumentation counters recording
the externally visible calls the methods make (provider stop/restart
requests, sessions created, worker threads spawned, backoff sleeps). -/

structure CMState where
  transcript_queue : PyQueue Transcript
  response_queue : PyQueue AIResponse
  is_running : Bool
  tts_playing : Bool
  has_metrics : Bool                  -- `metrics_collector is not None`
  has_interruption_handler : Bool     -- `interruption_handler is not None`
  ih_is_interrupted : Bool            -- `interruption_handler.is_interrupted`
  metrics_interruptions : ℕ           -- interruptions recorded by the collector
  error_count : ℕ
  tts_stop_requests : ℕ               -- `tts_provider.stop_playback()` calls
  ai_stop_requests : ℕ                -- `ai_provider.stop_streaming()` calls
  stt_reinits : ℕ                     -- provider restarts from `_handle_stt_error`
  sessions_created : ℕ                -- `session_manager.create_session()` calls
  threads_spawned : ℕ                 -- worker threads started
  backoff_sleeps : List ℕ             -- the `time.sleep(min(2**retry, 10))` durations
deriving DecidableEq

/-- `ConversationManager.__init__` (lines 44-75): three fresh unbounded
queues, not running, not speaking. -/
def CMState.init (enable_metrics enable_interruptions : Bool) : CMState :=
  { transcript_queue := PyQueue.mkDefault Transcript
    response_queue := PyQueue.mkDefault AIResponse
    is_running := false
    tts_playing := false
    has_metrics := enable_metrics
    has_interruption_handler := enable_interruptions
    ih_is_interrupted := false
    metrics_interruptions := 0
    error_count := 0
    tts_stop_requests := 0
    ai_stop_requests := 0
    stt_reinits := 0
    sessions_created := 0
    threads_spawned := 0
    backoff_sleeps := [] }

/-- The transcript push in `_stt_worker` (line 217): a plain blocking
`Queue.put` on the transcript queue. -/
def sttPutTranscript (s : CMState) (t : Transcript) : Option CMState :=
  (s.transcript_queue.put t).map fun q => { s with transcript_queue := q }

/-- The drain loop of `handle_interruption` (lines 391-397):
`while not empty: get_nowait()` — removes items one at a time until the queue
reports empty. -/
def drainItems : List AIResponse → List AIResponse
  | [] => []
  | _ :: rest => drainItems rest

/-- `handle_interruption` (lines 382-417): record the interruption in the
metrics, drain the response queue, stop TTS playback and clear `tts_playing`
if speaking, ask the AI provider to stop streaming, and reset the
interruption handler's flag. -/
def handleInterruption (s : CMState) : CMState :=
  let s1 := if s.has_metrics
    then { s with metrics_interruptions := s.metrics_interruptions + 1 } else s
  let s2 := { s1 with
    response_queue := { s1.response_queue with items := drainItems s1.response_queue.items } }
  let s3 := if s2.tts_playing
    then { s2 with tts_stop_requests := s2.tts_stop_requests + 1, tts_playing := false }
    else s2
  let s4 := { s3 with ai_stop_requests := s3.ai_stop_requests + 1 }
  if s4.has_interruption_handler then { s4 with ih_is_interrupted := false } else s4

/-- `start` (lines 107-150), success path: creates a fresh session, sets the
running flag, clears the shutdown event, initializes the three providers,
starts metrics collection and spawns the three worker threads.  The method
has no already-started guard: nothing in it reads or branches on
`is_running`. -/
def startCM (s : CMState) : CMState :=
  { s with
    sessions_created := s.sessions_created + 1
    is_running := true
    threads_spawned := s.threads_spawned + 3 }

/-- `self.max_retries = 3` (line 75). -/
def maxRetries : ℕ := 3

/-- One trip of the `while` loop body of `_stt_worker` (lines 194-243), at
the granularity of claim C8: `raised = false` means the transcript stream was
consumed without an exception (the body then resets `retry_count` to 0,
line 230); `raised = true` means a backend exception reached the `except`
block (lines 232-243): `_handle_stt_error` bumps `error_count` and restarts
the provider, `retry_count` is incremented, and then either the pipeline is
stopped (`retry_count >= max_retries`) or the loop sleeps
`min(2**retry_count, 10)` seconds before retrying. -/
def sttWorkerStep (s : CMState) (retry_count : ℕ) (raised : Bool) : CMState × ℕ :=
  if raised then
    let s1 := { s with error_count := s.error_count + 1, stt_reinits := s.stt_reinits + 1 }
    let rc := retry_count + 1
    if maxRetries ≤ rc then ({ s1 with is_running := false }, rc)
    else ({ s1 with backoff_sleeps := s1.backoff_sleeps ++ [min (2 ^ rc) 10] }, rc)
  else (s, 0)

/-- A run of consecutive `_stt_worker` loop iterations with the given
outcomes. -/
def sttWorkerRun (s : CMState) (retry_count : ℕ) : List Bool → CMState × ℕ
  | [] => (s, retry_count)
  | o :: os =>
      let r := sttWorkerStep s retry_count o
      sttWorkerRun r.1 r.2 os

/-! ## InterruptionHandler (utils/interruption_handler.py) -/

/-- The `InterruptionHandler` state (`__init__`, lines 18-51).  Registered
callbacks are modelled by whether each one raises when invoked
(`callback_fails`), plus an instrumentation count of how many times each has
been invoked (`callback_calls`). -/
structure IHState where
  is_interrupted : Bool
  callback_fails : List Bool
  callback_calls : List ℕ
  last_interruption_time : ℚ
  voice_threshold : ℚ
  voice_frames : List Bool
  is_voice_active : Bool
  last_voice_time : ℚ
  audio_levels : List ℚ
  noise_floor : ℚ
  dynamic_threshold : ℚ
  update_threshold_counter : ℕ
deriving DecidableEq

/-- Fresh handler with the default constructor arguments
(`voice_threshold = 0.7`). -/
def IHState.initIH : IHState :=
  { is_interrupted := false
    callback_fails := []
    callback_calls := []
    last_interruption_time := 0
    voice_threshold := 7/10
    voice_frames := []
    is_voice_active := false
    last_voice_time := 0
    audio_levels := []
    noise_floor := 0
    dynamic_threshold := 0
    update_threshold_counter := 0 }

/-- `register_callback` (lines 195-197): appends the callback. -/
def IHState.register_callback (s : IHState) (fails : Bool) : IHState :=
  { s with callback_fails := s.callback_fails ++ [fails],
           callback_calls := s.callback_calls ++ [0] }

def IHState.registerAll (s : IHState) (fs : List Bool) : IHState :=
  fs.foldl IHState.register_callback s

/-- The callback loop of `trigger_interruption` (lines 177-181): each
callback is invoked once in order; a raising callback is caught and logged
inside the loop, so the remaining callbacks still run. -/
def runCallbacks : List Bool → List ℕ → List ℕ
  | [], cs => cs
  | _ :: _, [] => []
  | _ :: fs, c :: cs => (c + 1) :: runCallbacks fs cs

/-- `trigger_interruption` (lines 164-181) at wall-clock time `t`: a no-op
when the flag is already set; otherwise sets the flag, records the time, and
runs every registered callback. -/
def IHState.trigger_interruption (s : IHState) (t : ℚ) : IHState :=
  if s.is_interrupted then s
  else
    { s with is_interrupted := true, last_interruption_time := t,
             callback_calls := runCallbacks s.callback_fails s.callback_calls }

/-- `reset` (lines 183-188). -/
def IHState.reset (s : IHState) : IHState := { s with is_interrupted := false }

/-- `n` calls of `trigger_interruption` at time `t` with no intervening
`reset`. -/
def triggerN (s : IHState) (t : ℚ) : ℕ → IHState
  | 0 => s
  | n + 1 => (triggerN s t n).trigger_interruption t

/-- A `collections.deque(maxlen = m)` append: drop from the left when the
bound is exceeded. -/
def pushBounded {α : Type} (m : ℕ) (xs : List α) (x : α) : List α :=
  if m < (xs ++ [x]).length then (xs ++ [x]).drop ((xs ++ [x]).length - m)
  else xs ++ [x]

/-- Python `np.mean(xs)` = `sum(xs) / len(xs)` over exact rationals. -/
def listMean (xs : List ℚ) : ℚ := xs.sum / xs.length

/-- `_update_dynamic_threshold` (lines 118-137): no-op below 10 samples;
otherwise the noise floor is the mean of the sorted bottom quartile
(`recent_levels[: len(recent_levels) // 4]`) of the recent levels, and
`dynamic_threshold = max(noise_floor * 3.0, 0.01)`. -/
def IHState.update_dynamic_threshold (s : IHState) : IHState :=
  if s.audio_levels.length < 10 then s
  else
    let recent_levels := s.audio_levels.mergeSort (fun a b => decide (a ≤ b))
    let nf := listMean (recent_levels.take (recent_levels.length / 4))
    { s with noise_floor := nf, dynamic_threshold := max (nf * 3) (1/100) }

/-- One audio frame, abstracted to what `process_audio_frame` extracts from
it: its RMS energy (`audio_level`, line 61), the verdict of the delegate
`webrtcvad` classifier on it (`none` when the delegate raises, lines 82/112),
and the wall-clock time of the call (line 58). -/
structure FrameInput where
  level : ℚ
  vad : Option Bool
  time : ℚ
deriving DecidableEq

/-- `process_audio_frame` (lines 53-116).  Returns the speech-start verdict
and the updated state: append the RMS level, bump the counter and every 20
frames refresh the dynamic threshold; then combine the delegate verdict with
`audio_level > dynamic_threshold`, append it to the verdict window, and once
more than 10 verdicts have accumulated compare the voice ratio of the last 10
with `voice_threshold`; report `true` only on the inactive→active edge.  A
delegate exception is caught and the frame reports `false`. -/
def IHState.process_audio_frame (s : IHState) (f : FrameInput) : Bool × IHState :=
  let s1 := { s with audio_levels := pushBounded 50 s.audio_levels f.level }
  let s2 := { s1 with update_threshold_counter := s1.update_threshold_counter + 1 }
  let s3 := if s2.update_threshold_counter % 20 = 0 then s2.update_dynamic_threshold else s2
  match f.vad with
  | none => (false, s3)
  | some is_voice =>
      let level_voice := decide (s3.dynamic_threshold < f.level)
      let voice_detected := is_voice && level_voice
      let s4 := { s3 with voice_frames := pushBounded 100 s3.voice_frames voice_detected }
      if 10 < s4.voice_frames.length then
        let voice_frac : ℚ :=
          (((s4.voice_frames.drop (s4.voice_frames.length - 10)).countP id : ℕ) : ℚ) / 10
        let was_voice_active := s4.is_voice_active
        let active := decide (s4.voice_threshold ≤ voice_frac)
        let s5 := { s4 with is_voice_active := active }
        let s6 := if active then { s5 with last_voice_time := f.time } else s5
        if !was_voice_active && active then (true, s6) else (false, s6)
      else (false, s4)

/-- Feed a list of frames through `process_audio_frame`, collecting the
speech-start verdicts. -/
def runFrames (s : IHState) : List FrameInput → IHState × List Bool
  | [] => (s, [])
  | f :: rest =>
      let out := s.process_audio_frame f
      let r := runFrames out.2 rest
      (r.1, out.1 :: r.2)

/-! ## MetricsCollector statistics (metrics/collector.py) -/

/-- `LatencyMetrics` dataclass (collector.py lines 16-25). -/
structure LatencyMetrics where
  min : ℚ
  max : ℚ
  avg : ℚ
  p50 : ℚ
  p95 : ℚ
  p99 : ℚ
  samples : ℕ
deriving DecidableEq

/-- Python `min(x :: xs)`. -/
def pyMin (x : ℚ) (xs : List ℚ) : ℚ := xs.foldl min x

/-- Python `max(x :: xs)`. -/
def pyMax (x : ℚ) (xs : List ℚ) : ℚ := xs.foldl max x

/-- The inner `percentile(p)` closure (lines 134-138): `index = int(p * count)`
(truncation of a non-negative value = floor), clamped down to `count - 1`. -/
def percentileIdx (p : ℚ) (count : ℕ) : ℕ :=
  if count ≤ ⌊p * count⌋₊ then count - 1 else ⌊p * count⌋₊

/-- `sorted_latencies[index]`. -/
def percentileVal (sorted_latencies : List ℚ) (count : ℕ) (p : ℚ) : ℚ :=
  sorted_latencies.getD (percentileIdx p count) 0

/-- `_calculate_latency_stats` (lines 126-148). -/
def calculate_latency_stats (latencies : List ℚ) : LatencyMetrics :=
  match latencies with
  | [] => ⟨0, 0, 0, 0, 0, 0, 0⟩
  | x :: xs =>
      let sorted_latencies := (x :: xs).mergeSort (fun a b => decide (a ≤ b))
      let count := (x :: xs).length
      { min := pyMin x xs
        max := pyMax x xs
        avg := (x :: xs).sum / count
        p50 := percentileVal sorted_latencies count (1/2)
        p95 := percentileVal sorted_latencies count (95/100)
        p99 := percentileVal sorted_latencies count (99/100)
        samples := count }

/-- Concrete transcript used by witnesses and counterexamples below. -/
def sampleTranscript : Transcript := ⟨"hello", 0, true, false, none, none⟩

/-- Push `n` transcripts through the `_stt_worker` put. -/
def putNTranscripts : ℕ → CMState → CMState
  | 0, s => s
  | n + 1, s =>
      match sttPutTranscript s sampleTranscript with
      | some s2 => putNTranscripts n s2
      | none => s

/-- A concrete partially-filled buffer: size 4, three samples written, one
read back. -/
def rbEx : RingBuffer := ((((RingBuffer.mk0 4).write [1, 2, 3]).2).read 1).2

def tenFrames : List FrameInput := List.replicate 10 ⟨1, some true, 0⟩

/-! ### VAD dynamic-threshold analysis (claim C6)

The states reached by feeding a frame stream with energies `e 0, e 1, …`
through `process_audio_frame`, and closed forms for the level window and the
threshold. -/

/-- The handler state after the first `t` frames of the stream whose `i`-th
frame has RMS energy `e i`, delegate verdict `v i`, and timestamp `τ i`. -/
def procN (e : ℕ → ℚ) (v : ℕ → Option Bool) (τ : ℕ → ℚ) : ℕ → IHState
  | 0 => IHState.initIH
  | t + 1 => ((procN e v τ t).process_audio_frame ⟨e t, v t, τ t⟩).2

/-- The rolling 50-deep energy window after `t` frames. -/
def levelsWin (e : ℕ → ℚ) (t : ℕ) : List ℚ := ((List.range t).map e).drop (t - 50)

/-- Index of the first energy inside the window after `t` frames. -/
def winStart (t : ℕ) : ℕ := t - min t 50

/-- `len(recent_levels) // 4` — the size of the bottom quartile. -/
def quartileLen (t : ℕ) : ℕ := min t 50 / 4

/-- Closed form of the noise floor computed at frame `t`: the mean of the
lowest quartile of the window (for a non-decreasing stream the window is
already sorted). -/
def nfAt (e : ℕ → ℚ) (t : ℕ) : ℚ :=
  (∑ i ∈ Finset.range (quartileLen t), e (winStart t + i)) / (quartileLen t)

/-- Closed form of `dynamic_threshold` after `t` frames of a non-decreasing
stream: still `0` before the first recomputation at frame 20, afterwards the
value computed at the latest multiple of 20. -/
def thrAt (e : ℕ → ℚ) (t : ℕ) : ℚ :=
  if t < 20 then 0 else max (nfAt e (20 * (t / 20)) * 3) (1/100)

/-! ## Lemmas and claim theorems -/

lemma RingBuffer.contents_length (rb : RingBuffer) (h : rb.WF) :
    rb.contents.length = rb.available_read := by
  obtain ⟨hs, hw, hr, hd⟩ := h
  unfold RingBuffer.contents RingBuffer.available_read
  split <;> simp <;> omega

lemma RingBuffer.free_space_eq (rb : RingBuffer) (h : rb.WF) :
    rb.free_space = rb.size - rb.contents.length := by
  have hc := rb.contents_length h
  obtain ⟨hs, hw, hr, hd⟩ := h
  unfold RingBuffer.free_space
  unfold RingBuffer.available_read at hc
  split_ifs at hc ⊢ <;> omega

lemma RingBuffer.mk0_WF (size : ℕ) (h : 0 < size) : (RingBuffer.mk0 size).WF := by
  refine ⟨h, h, h, ?_⟩
  simp [RingBuffer.mk0]

lemma RingBuffer.mk0_contents (size : ℕ) : (RingBuffer.mk0 size).contents = [] := by
  simp [RingBuffer.mk0, RingBuffer.contents]

lemma setSeg_length (d : List ℤ) (start : ℕ) (vals : List ℤ)
    (h : start + vals.length ≤ d.length) : (setSeg d start vals).length = d.length := by
  unfold setSeg
  simp
  omega

lemma circSlice_length (d : List ℤ) (start len size : ℕ)
    (hstart : start < size) (hlen : len ≤ size) (hd : d.length = size) :
    (circSlice d start len size).length = len := by
  unfold circSlice
  split <;> simp <;> omega

lemma circSlice_zero (d : List ℤ) (start size : ℕ) (h : start ≤ size) :
    circSlice d start 0 size = [] := by
  unfold circSlice
  rw [if_pos (by omega)]
  simp

lemma circSlice_split (d : List ℤ) (start a b size : ℕ)
    (hstart : start < size) (hab : a + b ≤ size) (hd : d.length = size) :
    circSlice d start (a + b) size =
      circSlice d start a size ++ circSlice d ((start + a) % size) b size := by
  by_cases h1 : start + (a + b) ≤ size
  · by_cases h2 : start + a < size
    · unfold circSlice
      rw [if_pos h1, if_pos (by omega), Nat.mod_eq_of_lt h2, if_pos (by omega)]
      rw [List.take_add, List.drop_drop]
    · have hsa : start + a = size := by omega
      have hb : b = 0 := by omega
      subst hb
      unfold circSlice
      rw [if_pos h1, if_pos (by omega), hsa, Nat.mod_self, if_pos (by omega)]
      simp
  · push_neg at h1
    by_cases h3 : start + a < size
    · unfold circSlice
      rw [if_neg (by omega), if_pos (by omega), Nat.mod_eq_of_lt h3, if_neg (by omega)]
      have hsplit : d.drop start = (d.drop start).take a ++ d.drop (start + a) := by
        rw [← List.drop_drop]
        exact (List.take_append_drop _ _).symm
      have harith : a + b - (size - start) = b - (size - (start + a)) := by omega
      calc d.drop start ++ d.take (a + b - (size - start))
          = ((d.drop start).take a ++ d.drop (start + a)) ++
              d.take (a + b - (size - start)) := by rw [← hsplit]
        _ = (d.drop start).take a ++
              (d.drop (start + a) ++ d.take (b - (size - (start + a)))) := by
            rw [List.append_assoc, harith]
    · by_cases h2 : start + a ≤ size
      · have hsa : start + a = size := by omega
        unfold circSlice
        rw [if_neg (by omega), if_pos h2, hsa, Nat.mod_self, if_pos (by omega)]
        have h4 : (d.drop start).take a = d.drop start :=
          List.take_of_length_le (by simp; omega)
        have h5 : a + b - (size - start) = b := by omega
        rw [h4, h5, List.drop_zero]
      · push_neg at h2
        have hc : (start + a) % size = start + a - size := by
          rw [Nat.mod_eq_sub_mod (by omega), Nat.mod_eq_of_lt (by omega)]
        unfold circSlice
        rw [if_neg (by omega), if_neg (by omega), hc, if_pos (by omega)]
        rw [List.append_assoc]
        congr 1
        have hc2 : a + b - (size - start) = (a - (size - start)) + b := by omega
        have hc3 : a - (size - start) = start + a - size := by omega
        rw [hc2, List.take_add, hc3]

lemma circSlice_take (d : List ℤ) (start len size k : ℕ)
    (hstart : start < size) (hlen : len ≤ size) (hd : d.length = size) :
    (circSlice d start len size).take k = circSlice d start (min k len) size := by
  rcases le_or_lt k len with h | h
  · have hsplit := circSlice_split d start k (len - k) size hstart (by omega) hd
    rw [show k + (len - k) = len by omega] at hsplit
    rw [hsplit, List.take_append_eq_append_take,
      circSlice_length d start k size hstart (by omega) hd]
    rw [List.take_of_length_le
      (le_of_eq (circSlice_length d start k size hstart (by omega) hd))]
    simp [Nat.min_eq_left h]
  · rw [List.take_of_length_le
      (by rw [circSlice_length d start len size hstart hlen hd]; omega)]
    rw [Nat.min_eq_right (by omega)]

lemma circSlice_drop (d : List ℤ) (start len size k : ℕ)
    (hstart : start < size) (hlen : len ≤ size) (hd : d.length = size) :
    (circSlice d start len size).drop k =
      circSlice d ((start + min k len) % size) (len - k) size := by
  rcases le_or_lt k len with h | h
  · have hsplit := circSlice_split d start k (len - k) size hstart (by omega) hd
    rw [show k + (len - k) = len by omega] at hsplit
    rw [hsplit, List.drop_append_eq_append_drop,
      circSlice_length d start k size hstart (by omega) hd]
    rw [List.drop_eq_nil_of_le
      (le_of_eq (circSlice_length d start k size hstart (by omega) hd))]
    simp [Nat.min_eq_left h]
  · rw [List.drop_eq_nil_of_le
      (by rw [circSlice_length d start len size hstart hlen hd]; omega)]
    rw [Nat.min_eq_right (by omega), show len - k = 0 by omega]
    rw [circSlice_zero]
    exact le_of_lt (Nat.mod_lt _ (by omega))

lemma RingBuffer.available_read_lt_size (rb : RingBuffer) (h : rb.WF) :
    rb.available_read < rb.size := by
  obtain ⟨hs, hw, hr, hd⟩ := h
  unfold RingBuffer.available_read
  split <;> omega

lemma RingBuffer.contents_eq_circSlice (rb : RingBuffer) (h : rb.WF) :
    rb.contents = circSlice rb.data rb.read_pos rb.available_read rb.size := by
  obtain ⟨hs, hw, hr, hd⟩ := h
  unfold RingBuffer.contents RingBuffer.available_read circSlice
  by_cases hlt : rb.write_pos < rb.read_pos
  · rw [if_pos hlt, if_pos hlt]
    by_cases hw0 : rb.write_pos = 0
    · rw [if_pos (by omega)]
      rw [hw0]
      rw [List.take_zero, List.append_nil, Nat.add_zero]
      exact (List.take_of_length_le (by simp [hd])).symm
    · rw [if_neg (by omega)]
      congr 1
      congr 1
      omega
  · rw [if_neg hlt, if_neg hlt, if_pos (by omega)]

lemma RingBuffer.writePos_eq (rb : RingBuffer) (h : rb.WF) :
    (rb.read_pos + rb.available_read) % rb.size = rb.write_pos := by
  obtain ⟨hs, hw, hr, hd⟩ := h
  unfold RingBuffer.available_read
  split
  · rw [show rb.read_pos + (rb.size - rb.read_pos + rb.write_pos)
        = rb.size + rb.write_pos by omega]
    rw [Nat.add_mod_left, Nat.mod_eq_of_lt hw]
  · rw [show rb.read_pos + (rb.write_pos - rb.read_pos) = rb.write_pos by omega]
    exact Nat.mod_eq_of_lt hw

/-- How `available_read` looks after the write/read pointer moves: if the
write pointer sits `p` slots (mod `size`) after the read pointer, with
`p < size`, then `available_read` reports exactly `p`. -/
lemma availR_mod (size rp p : ℕ) (hrp : rp < size) (hp : p < size) :
    (if (rp + p) % size < rp then size - rp + (rp + p) % size
     else (rp + p) % size - rp) = p := by
  rcases lt_or_ge (rp + p) size with h | h
  · rw [Nat.mod_eq_of_lt h]
    split <;> omega
  · have h2 : (rp + p) % size = rp + p - size := by
      rw [Nat.mod_eq_sub_mod h, Nat.mod_eq_of_lt (by omega)]
    rw [h2]
    split <;> omega

/-- Both pointers moving: `available_read` after a read of `k` samples from a
pointer distance of `a`. -/
lemma availR_sub (size rp a k : ℕ) (hrp : rp < size) (ha : a < size) (hk : k ≤ a) :
    (if (rp + a) % size < (rp + k) % size
     then size - (rp + k) % size + (rp + a) % size
     else (rp + a) % size - (rp + k) % size) = a - k := by
  rcases lt_or_ge (rp + k) size with h1 | h1
  · rcases lt_or_ge (rp + a) size with h2 | h2
    · rw [Nat.mod_eq_of_lt h1, Nat.mod_eq_of_lt h2]
      split <;> omega
    · have h3 : (rp + a) % size = rp + a - size := by
        rw [Nat.mod_eq_sub_mod h2, Nat.mod_eq_of_lt (by omega)]
      rw [Nat.mod_eq_of_lt h1, h3]
      split <;> omega
  · have h2 : rp + a ≥ size := by omega
    have h3 : (rp + a) % size = rp + a - size := by
      rw [Nat.mod_eq_sub_mod h2, Nat.mod_eq_of_lt (by omega)]
    have h4 : (rp + k) % size = rp + k - size := by
      rw [Nat.mod_eq_sub_mod h1, Nat.mod_eq_of_lt (by omega)]
    rw [h3, h4]
    split <;> omega

lemma take_append_take (d L : List ℤ) (n : ℕ) (h : n ≤ d.length) :
    (d.take n ++ L).take n = d.take n :=
  List.take_left' (by simp; omega)

lemma drop_append_drop (d L : List ℤ) (n : ℕ) (h : n ≤ d.length) :
    (d.take n ++ L).drop n = L :=
  List.drop_left' (by simp; omega)

lemma RingBuffer.writeData_length (rb : RingBuffer) (w : List ℤ)
    (h : rb.WF) (hwlen : w.length ≤ rb.size) :
    (rb.writeData w).length = rb.size := by
  obtain ⟨hs, hw, hr, hd⟩ := h
  unfold RingBuffer.writeData
  split
  · rw [setSeg_length _ _ _ (by omega)]
    exact hd
  · have h1 : (setSeg rb.data rb.write_pos (w.take (rb.size - rb.write_pos))).length
        = rb.data.length := setSeg_length _ _ _ (by simp; omega)
    rw [setSeg_length _ _ _ (by rw [h1]; simp; omega), h1, hd]

/-- In the wraparound branch of `write`, the updated array is the tail of the
input followed by the mid part of the filled array. -/
lemma RingBuffer.writeData_wrap_eq (rb : RingBuffer) (w : List ℤ)
    (h : rb.WF) (_hwlen : w.length ≤ rb.size) (h1 : rb.size < rb.write_pos + w.length) :
    rb.writeData w = w.drop (rb.size - rb.write_pos) ++
      (rb.data.take rb.write_pos ++ w.take (rb.size - rb.write_pos)).drop
        (w.length - (rb.size - rb.write_pos)) := by
  obtain ⟨hs, hw, hr, hd⟩ := h
  unfold RingBuffer.writeData setSeg
  rw [if_neg (by omega)]
  have hfp : (w.take (rb.size - rb.write_pos)).length = rb.size - rb.write_pos := by
    simp
    omega
  rw [hfp, show rb.write_pos + (rb.size - rb.write_pos) = rb.size by omega]
  rw [List.drop_eq_nil_of_le (le_of_eq hd), List.append_nil]
  simp only [List.take_zero, List.nil_append, Nat.zero_add, List.length_drop]

lemma RingBuffer.circSlice_writeData_new (rb : RingBuffer) (w : List ℤ)
    (h : rb.WF) (hwlen : w.length ≤ rb.size) :
    circSlice (rb.writeData w) rb.write_pos w.length rb.size = w := by
  obtain ⟨hs, hw, hr, hd⟩ := h
  by_cases h1 : rb.write_pos + w.length ≤ rb.size
  · have hdata : rb.writeData w
        = rb.data.take rb.write_pos ++ (w ++ rb.data.drop (rb.write_pos + w.length)) := by
      unfold RingBuffer.writeData setSeg
      rw [if_pos h1, List.append_assoc]
    unfold circSlice
    rw [if_pos h1, hdata, drop_append_drop _ _ _ (by omega), List.take_left' rfl]
  · push_neg at h1
    have hdata := rb.writeData_wrap_eq w ⟨hs, hw, hr, hd⟩ hwlen h1
    unfold circSlice
    rw [if_neg (by omega), hdata]
    have htake : (w.drop (rb.size - rb.write_pos) ++
        (rb.data.take rb.write_pos ++ w.take (rb.size - rb.write_pos)).drop
          (w.length - (rb.size - rb.write_pos))).take
        (w.length - (rb.size - rb.write_pos)) = w.drop (rb.size - rb.write_pos) :=
      List.take_left' (by simp)
    have hdrop : (w.drop (rb.size - rb.write_pos) ++
        (rb.data.take rb.write_pos ++ w.take (rb.size - rb.write_pos)).drop
          (w.length - (rb.size - rb.write_pos))).drop rb.write_pos
        = w.take (rb.size - rb.write_pos) := by
      rw [List.drop_append_eq_append_drop]
      rw [List.drop_eq_nil_of_le (by simp; omega), List.nil_append]
      rw [List.length_drop, List.drop_drop]
      rw [show w.length - (rb.size - rb.write_pos)
          + (rb.write_pos - (w.length - (rb.size - rb.write_pos))) = rb.write_pos by omega]
      exact drop_append_drop _ _ _ (by omega)
    rw [htake, hdrop, List.take_append_drop]

lemma RingBuffer.circSlice_writeData_old (rb : RingBuffer) (w : List ℤ)
    (h : rb.WF) (hcap : rb.available_read + w.length ≤ rb.size) :
    circSlice (rb.writeData w) rb.read_pos rb.available_read rb.size =
      circSlice rb.data rb.read_pos rb.available_read rb.size := by
  obtain ⟨hs, hw, hr, hd⟩ := h
  have hwp := rb.writePos_eq ⟨hs, hw, hr, hd⟩
  have hav := rb.available_read_lt_size ⟨hs, hw, hr, hd⟩
  rcases lt_trichotomy (rb.read_pos + rb.available_read) rb.size with hc | hc | hc
  · -- unread region does not wrap; write pointer sits at `read_pos + available`
    have hwpe : rb.write_pos = rb.read_pos + rb.available_read := by
      rw [← hwp, Nat.mod_eq_of_lt hc]
    by_cases h1 : rb.write_pos + w.length ≤ rb.size
    · have hdata : rb.writeData w
          = rb.data.take rb.write_pos ++ (w ++ rb.data.drop (rb.write_pos + w.length)) := by
        unfold RingBuffer.writeData setSeg
        rw [if_pos h1, List.append_assoc]
      unfold circSlice
      rw [if_pos (by omega), if_pos (by omega)]
      rw [List.take_drop, List.take_drop]
      rw [hdata, show rb.read_pos + rb.available_read = rb.write_pos from hwpe.symm]
      rw [take_append_take _ _ _ (by omega)]
    · push_neg at h1
      have hdata := rb.writeData_wrap_eq w ⟨hs, hw, hr, hd⟩ (by omega) h1
      unfold circSlice
      rw [if_pos (by omega), if_pos (by omega)]
      rw [List.take_drop, List.take_drop]
      rw [hdata]
      have hdrop : ((w.drop (rb.size - rb.write_pos) ++
          (rb.data.take rb.write_pos ++ w.take (rb.size - rb.write_pos)).drop
            (w.length - (rb.size - rb.write_pos))).take
              (rb.read_pos + rb.available_read)).drop rb.read_pos
          = ((rb.data.take rb.write_pos ++ w.take (rb.size - rb.write_pos)).take
              (rb.read_pos + rb.available_read)).drop rb.read_pos := by
        rw [← List.take_drop, ← List.take_drop]
        rw [List.drop_append_eq_append_drop]
        rw [List.drop_eq_nil_of_le (by simp; omega), List.nil_append]
        rw [List.length_drop, List.drop_drop]
        rw [show w.length - (rb.size - rb.write_pos)
            + (rb.read_pos - (w.length - (rb.size - rb.write_pos))) = rb.read_pos by omega]
      rw [hdrop, ← hwpe, take_append_take _ _ _ (by omega)]
  · -- unread region ends exactly at the top of the array; write pointer is 0
    have hwpe : rb.write_pos = 0 := by
      rw [← hwp, hc, Nat.mod_self]
    have hdata : rb.writeData w = w ++ rb.data.drop w.length := by
      unfold RingBuffer.writeData setSeg
      rw [if_pos (by omega), hwpe]
      simp
    unfold circSlice
    rw [if_pos (by omega), if_pos (by omega)]
    rw [hdata, List.drop_append_eq_append_drop]
    rw [List.drop_eq_nil_of_le (by omega), List.nil_append, List.drop_drop]
    rw [show w.length + (rb.read_pos - w.length) = rb.read_pos by omega]
  · -- unread region wraps; the written segment lies strictly between the two pointers
    have hwpe : rb.write_pos = rb.read_pos + rb.available_read - rb.size := by
      rw [← hwp, Nat.mod_eq_sub_mod (by omega), Nat.mod_eq_of_lt (by omega)]
    have h1 : rb.write_pos + w.length ≤ rb.size := by omega
    have hdata : rb.writeData w
        = rb.data.take rb.write_pos ++ (w ++ rb.data.drop (rb.write_pos + w.length)) := by
      unfold RingBuffer.writeData setSeg
      rw [if_pos h1, List.append_assoc]
    unfold circSlice
    rw [if_neg (by omega), if_neg (by omega), hdata]
    have hdrop : (rb.data.take rb.write_pos ++ (w ++ rb.data.drop (rb.write_pos + w.length))).drop
        rb.read_pos = rb.data.drop rb.read_pos := by
      rw [List.drop_append_eq_append_drop, List.drop_append_eq_append_drop]
      rw [List.drop_eq_nil_of_le (by simp; omega), List.drop_eq_nil_of_le (by simp; omega)]
      rw [List.nil_append, List.nil_append, List.drop_drop]
      congr 1
      simp
      omega
    have htake : (rb.data.take rb.write_pos ++ (w ++ rb.data.drop (rb.write_pos + w.length))).take
        (rb.available_read - (rb.size - rb.read_pos))
        = rb.data.take (rb.available_read - (rb.size - rb.read_pos)) := by
      rw [show rb.available_read - (rb.size - rb.read_pos) = rb.write_pos by omega]
      exact take_append_take _ _ _ (by omega)
    rw [hdrop, htake, show rb.available_read - (rb.size - rb.read_pos) = rb.write_pos by omega]

/-- Behaviour of `read` on the abstract queue of unread samples: it returns
the first `min n available` samples and removes them. -/
lemma RingBuffer.read_spec (rb : RingBuffer) (n : ℕ) (h : rb.WF) :
    (rb.read n).1 = rb.contents.take n ∧
    (rb.read n).2.contents = rb.contents.drop n ∧
    (rb.read n).2.WF ∧ (rb.read n).2.size = rb.size := by
  obtain ⟨hs, hw, hr, hd⟩ := h
  have hwf : rb.WF := ⟨hs, hw, hr, hd⟩
  have hav := rb.available_read_lt_size hwf
  have hcs := rb.contents_eq_circSlice hwf
  have hclen := rb.contents_length hwf
  by_cases h0 : min n rb.available_read = 0
  · have hread : rb.read n = ([], rb) := by
      simp only [RingBuffer.read]
      rw [if_pos h0]
    rw [hread]
    rcases (show n = 0 ∨ rb.available_read = 0 by omega) with h | h
    · subst h
      exact ⟨by simp, by simp, hwf, rfl⟩
    · have hnil : rb.contents = [] := List.length_eq_zero.mp (by omega)
      exact ⟨by simp [hnil], by simp [hnil], hwf, rfl⟩
  · have hread : rb.read n
        = (circSlice rb.data rb.read_pos (min n rb.available_read) rb.size,
           { rb with read_pos := (rb.read_pos + min n rb.available_read) % rb.size }) := by
      simp only [RingBuffer.read, circSlice]
      rw [if_neg h0]
    have hwf2 : ({ rb with
        read_pos := (rb.read_pos + min n rb.available_read) % rb.size } : RingBuffer).WF :=
      ⟨hs, hw, Nat.mod_lt _ hs, hd⟩
    have havail2 : ({ rb with
        read_pos := (rb.read_pos + min n rb.available_read) % rb.size }
          : RingBuffer).available_read
        = rb.available_read - min n rb.available_read := by
      show (if rb.write_pos < (rb.read_pos + min n rb.available_read) % rb.size
        then rb.size - (rb.read_pos + min n rb.available_read) % rb.size + rb.write_pos
        else rb.write_pos - (rb.read_pos + min n rb.available_read) % rb.size)
        = rb.available_read - min n rb.available_read
      rw [← rb.writePos_eq hwf]
      exact availR_sub rb.size rb.read_pos rb.available_read (min n rb.available_read)
        hr hav (Nat.min_le_right _ _)
    refine ⟨?_, ?_, ?_, ?_⟩
    · rw [hread, hcs,
        circSlice_take rb.data rb.read_pos rb.available_read rb.size n hr (by omega) hd]
    · rw [hread]
      rw [RingBuffer.contents_eq_circSlice _ hwf2, havail2]
      conv_rhs => rw [hcs]
      rw [circSlice_drop rb.data rb.read_pos rb.available_read rb.size n hr (by omega) hd]
      have harith : rb.available_read - n = rb.available_read - min n rb.available_read := by
        omega
      rw [harith]
    · rw [hread]
      exact hwf2
    · rw [hread]

/-- Behaviour of `write` on the abstract queue of unread samples, in the
non-overflowing regime (the buffer never becomes completely full): the whole
input is accepted and appended. -/
lemma RingBuffer.write_spec (rb : RingBuffer) (xs : List ℤ) (h : rb.WF)
    (hcap : rb.contents.length + xs.length < rb.size) :
    (rb.write xs).1 = xs.length ∧
    (rb.write xs).2.contents = rb.contents ++ xs ∧
    (rb.write xs).2.WF ∧ (rb.write xs).2.size = rb.size := by
  obtain ⟨hs, hw, hr, hd⟩ := h
  have hwf : rb.WF := ⟨hs, hw, hr, hd⟩
  have hav := rb.available_read_lt_size hwf
  have hcs := rb.contents_eq_circSlice hwf
  have hclen := rb.contents_length hwf
  have hfs := rb.free_space_eq hwf
  have hwl : min xs.length rb.free_space = xs.length := by omega
  by_cases hx : xs.length = 0
  · have hxs : xs = [] := List.length_eq_zero.mp hx
    subst hxs
    have hwrite : rb.write [] = (0, rb) := by
      simp only [RingBuffer.write]
      rw [if_pos (by simp)]
    rw [hwrite]
    exact ⟨rfl, by simp, hwf, rfl⟩
  · have hwrite : rb.write xs
        = (xs.length, { rb with data := rb.writeData xs, write_pos := (rb.write_pos + xs.length) % rb.size }) := by
      simp only [RingBuffer.write]
      rw [hwl, if_neg hx, List.take_length]
    have hdlen : (rb.writeData xs).length = rb.size := rb.writeData_length xs hwf (by omega)
    have hwf2 : ({ rb with data := rb.writeData xs, write_pos := (rb.write_pos + xs.length) % rb.size } : RingBuffer).WF :=
      ⟨hs, Nat.mod_lt _ hs, hr, hdlen⟩
    have hwp2 : (rb.write_pos + xs.length) % rb.size
        = (rb.read_pos + (rb.available_read + xs.length)) % rb.size := by
      conv_lhs => rw [← rb.writePos_eq hwf]
      rw [Nat.mod_add_mod, Nat.add_assoc]
    have havail2 : ({ rb with data := rb.writeData xs, write_pos := (rb.write_pos + xs.length) % rb.size } : RingBuffer).available_read
        = rb.available_read + xs.length := by
      show (if (rb.write_pos + xs.length) % rb.size < rb.read_pos
        then rb.size - rb.read_pos + (rb.write_pos + xs.length) % rb.size
        else (rb.write_pos + xs.length) % rb.size - rb.read_pos)
        = rb.available_read + xs.length
      rw [hwp2]
      exact availR_mod rb.size rb.read_pos (rb.available_read + xs.length) hr (by omega)
    refine ⟨by rw [hwrite], ?_, ?_, ?_⟩
    · rw [hwrite]
      rw [RingBuffer.contents_eq_circSlice _ hwf2, havail2]
      have hsplit := circSlice_split (rb.writeData xs) rb.read_pos rb.available_read
        xs.length rb.size hr (by omega) hdlen
      rw [hsplit, rb.circSlice_writeData_old xs hwf (by omega), rb.writePos_eq hwf,
        rb.circSlice_writeData_new xs hwf (by omega), ← hcs]
    · rw [hwrite]
      exact hwf2
    · rw [hwrite]

/-- Simulation: while the buffer never fills completely, the ring buffer
behaves exactly like the FIFO queue of its unread samples. -/
lemma runOps_sim (ops : List BufOp) (rb : RingBuffer) (h : rb.WF)
    (hsafe : safeRunLt rb.size rb.contents ops = true) :
    (runOps rb ops).2 = (runQueue rb.contents ops).2 ∧
    (runOps rb ops).1.contents = (runQueue rb.contents ops).1 ∧
    (runOps rb ops).1.WF ∧ (runOps rb ops).1.size = rb.size := by
  induction ops generalizing rb with
  | nil => exact ⟨rfl, rfl, h, rfl⟩
  | cons op rest ih =>
    cases op with
    | write xs =>
      simp only [safeRunLt, Bool.and_eq_true, decide_eq_true_eq] at hsafe
      obtain ⟨hcap, hrest⟩ := hsafe
      obtain ⟨h1, h2, h3, h4⟩ := rb.write_spec xs h hcap
      obtain ⟨g1, g2, g3, g4⟩ := ih (rb.write xs).2 h3 (by rw [h2, h4]; exact hrest)
      refine ⟨?_, ?_, by simp only [runOps]; exact g3, by simp only [runOps]; rw [g4, h4]⟩
      · simp only [runOps, runQueue]
        rw [g1, h2]
      · simp only [runOps, runQueue]
        rw [g2, h2]
    | read n =>
      simp only [safeRunLt] at hsafe
      obtain ⟨h1, h2, h3, h4⟩ := rb.read_spec n h
      obtain ⟨g1, g2, g3, g4⟩ := ih (rb.read n).2 h3 (by rw [h2, h4]; exact hsafe)
      refine ⟨?_, ?_, by simp only [runOps]; exact g3, by simp only [runOps]; rw [g4, h4]⟩
      · simp only [runOps, runQueue]
        rw [g1, h1, h2]
      · simp only [runOps, runQueue]
        rw [g2, h2]

lemma drainItems_eq_nil (l : List AIResponse) : drainItems l = [] := by
  induction l with
  | nil => rfl
  | cons x rest ih => simpa [drainItems] using ih

/-! ## Claim theorems -/

/-- C1: for every state of the ConversationManager — any contents of the
response queue, any value of `tts_playing` — after `handle_interruption()`
returns, the response queue is empty and `tts_playing` (is_speaking) is
false. -/
theorem handle_interruption_clears_state (s : CMState) :
    (handleInterruption s).response_queue.items = [] ∧
    (handleInterruption s).tts_playing = false := by
  cases hm : s.has_metrics <;> cases ht : s.tts_playing <;>
    cases hi : s.has_interruption_handler <;>
      simp [handleInterruption, hm, ht, hi, drainItems_eq_nil]

/-- C9 counterexample: calling `start()` twice without an intervening
`stop()` is not refused — the second call creates a second session and
spawns a second set of three worker threads, so it is neither a failure nor a
no-op. -/
theorem start_twice_counterexample :
    (startCM (startCM (CMState.init true true))).sessions_created = 2 ∧
    (startCM (startCM (CMState.init true true))).threads_spawned = 6 ∧
    startCM (startCM (CMState.init true true)) ≠ startCM (CMState.init true true) := by
  decide

/-- C9 (amended): `start()` has no started-already guard: every call —
including a repeated one without an intervening `stop()` — sets
`is_running`, creates a fresh session and spawns three more stage threads. -/
theorem start_unguarded (s : CMState) :
    (startCM s).is_running = true ∧
    (startCM s).sessions_created = s.sessions_created + 1 ∧
    (startCM s).threads_spawned = s.threads_spawned + 3 :=
  ⟨rfl, rfl, rfl⟩

/-- C7 counterexample: the transcript queue is created with `maxsize = 0`
(unbounded, not a capacity in 1..8), and nine plain puts drive its depth to
nine. -/
theorem queue_bound_counterexample :
    (CMState.init true true).transcript_queue.maxsize = 0 ∧
    (CMState.init true true).response_queue.maxsize = 0 ∧
    (putNTranscripts 9 (CMState.init true true)).transcript_queue.qsize = 9 ∧
    ¬ (1 ≤ (CMState.init true true).transcript_queue.maxsize ∧
        (CMState.init true true).transcript_queue.maxsize ≤ 8) := by
  decide

/-- C7 (amended): both inter-stage queues are created unbounded
(`Queue()`, `maxsize = 0`), and the STT worker's put on such a queue always
appends the new transcript — nothing is ever dropped, so the depth is not
bounded by any fixed capacity. -/
theorem queues_unbounded_put_appends :
    (∀ em ei : Bool, (CMState.init em ei).transcript_queue.maxsize = 0 ∧
        (CMState.init em ei).response_queue.maxsize = 0) ∧
    (∀ (s : CMState) (t : Transcript), s.transcript_queue.maxsize = 0 →
      sttPutTranscript s t
        = some { s with transcript_queue :=
            { s.transcript_queue with items := s.transcript_queue.items ++ [t] } }) := by
  refine ⟨fun em ei => ⟨rfl, rfl⟩, fun s t h => ?_⟩
  unfold sttPutTranscript PyQueue.put
  rw [if_neg (by simp [h])]
  rfl

theorem queues_unbounded_put_appends_witness :
    (CMState.init true true).transcript_queue.maxsize = 0 ∧
    sttPutTranscript (CMState.init true true) sampleTranscript
      = some { CMState.init true true with transcript_queue :=
          { (CMState.init true true).transcript_queue with
            items := (CMState.init true true).transcript_queue.items ++ [sampleTranscript] } } :=
  ⟨rfl, queues_unbounded_put_appends.2 (CMState.init true true) sampleTranscript rfl⟩

/-- C8: in the STT capture stage, every backend error bumps the consecutive
retry count and `error_count`, restarts the provider, and (while below
`max_retries = 3`) sleeps `min(2^retry, 10)` seconds and keeps the pipeline
running; a successful iteration resets the count to 0; and the third
consecutive failure stops the whole pipeline (`is_running = false`) instead
of retrying further. -/
theorem stt_worker_retry_policy (s : CMState) (rc : ℕ) :
    maxRetries = 3 ∧
    (sttWorkerStep s rc true).2 = rc + 1 ∧
    (sttWorkerStep s rc true).1.error_count = s.error_count + 1 ∧
    (sttWorkerStep s rc true).1.stt_reinits = s.stt_reinits + 1 ∧
    (rc + 1 < maxRetries →
      (sttWorkerStep s rc true).1.backoff_sleeps
          = s.backoff_sleeps ++ [min (2 ^ (rc + 1)) 10] ∧
      (sttWorkerStep s rc true).1.is_running = s.is_running) ∧
    (maxRetries ≤ rc + 1 → (sttWorkerStep s rc true).1.is_running = false) ∧
    sttWorkerStep s rc false = (s, 0) ∧
    (sttWorkerRun s 0 [true, true, true]).1.is_running = false := by
  unfold sttWorkerStep sttWorkerRun maxRetries
  refine ⟨rfl, ?_, ?_, ?_, ?_, ?_, rfl, ?_⟩ <;> by_cases h3 : 3 ≤ rc + 1 <;>
    simp [h3, sttWorkerStep, sttWorkerRun, maxRetries]

theorem stt_worker_retry_policy_witness :
    (sttWorkerStep (CMState.init true true) 0 true).1.backoff_sleeps
        = (CMState.init true true).backoff_sleeps ++ [min (2 ^ (0 + 1)) 10] ∧
    (sttWorkerStep (CMState.init true true) 2 true).1.is_running = false :=
  ⟨((stt_worker_retry_policy (CMState.init true true) 0).2.2.2.2.1 (by decide)).1,
   (stt_worker_retry_policy (CMState.init true true) 2).2.2.2.2.2.1 (by decide)⟩

lemma registerAll_fields (fs : List Bool) : ∀ s : IHState,
    (s.registerAll fs).callback_fails = s.callback_fails ++ fs ∧
    (s.registerAll fs).callback_calls = s.callback_calls ++ List.replicate fs.length 0 ∧
    (s.registerAll fs).is_interrupted = s.is_interrupted := by
  induction fs with
  | nil => intro s; simp [IHState.registerAll]
  | cons f fs ih =>
      intro s
      obtain ⟨h1, h2, h3⟩ := ih (s.register_callback f)
      refine ⟨?_, ?_, ?_⟩
      · show (IHState.registerAll (s.register_callback f) fs).callback_fails = _
        rw [h1]
        simp [IHState.register_callback]
      · show (IHState.registerAll (s.register_callback f) fs).callback_calls = _
        rw [h2]
        simp [IHState.register_callback, List.replicate_succ]
      · show (IHState.registerAll (s.register_callback f) fs).is_interrupted = _
        rw [h3]
        simp [IHState.register_callback]

lemma runCallbacks_replicate (fs : List Bool) :
    runCallbacks fs (List.replicate fs.length 0) = List.replicate fs.length 1 := by
  induction fs with
  | nil => rfl
  | cons f fs ih => simp [runCallbacks, List.replicate_succ, ih]

lemma trigger_of_triggered (s : IHState) (t : ℚ) (h : s.is_interrupted = true) :
    s.trigger_interruption t = s := by
  unfold IHState.trigger_interruption
  rw [if_pos h]

lemma triggerN_stable (s : IHState) (t : ℚ)
    (h : (s.trigger_interruption t).is_interrupted = true) :
    ∀ m, triggerN s t (m + 1) = s.trigger_interruption t := by
  intro m
  induction m with
  | zero => rfl
  | succ k ih =>
      show (triggerN s t (k + 1)).trigger_interruption t = _
      rw [ih, trigger_of_triggered _ _ h]

/-- C4: for every set of registered callbacks — failing or not — any number
`n ≥ 1` of `trigger_interruption()` calls without an intervening `reset()`
invokes each registered callback exactly once (the callback loop catches a
raising callback and still reaches the remaining ones, and a second trigger
is a guarded no-op). -/
theorem trigger_twice_invokes_callbacks_once (fails : List Bool) (t : ℚ) (n : ℕ)
    (hn : 1 ≤ n) :
    (triggerN (IHState.initIH.registerAll fails) t n).callback_calls
      = List.replicate fails.length 1 := by
  obtain ⟨m, rfl⟩ : ∃ m, n = m + 1 := ⟨n - 1, by omega⟩
  obtain ⟨h1, h2, h3⟩ := registerAll_fields fails IHState.initIH
  have hni : (IHState.initIH.registerAll fails).is_interrupted = false := by
    rw [h3]
    simp [IHState.initIH]
  have htrig : ((IHState.initIH.registerAll fails).trigger_interruption t).is_interrupted
      = true := by
    unfold IHState.trigger_interruption
    rw [if_neg (by rw [hni]; simp)]
  rw [triggerN_stable _ _ htrig m]
  unfold IHState.trigger_interruption
  rw [if_neg (by rw [hni]; simp)]
  show runCallbacks (IHState.initIH.registerAll fails).callback_fails
      (IHState.initIH.registerAll fails).callback_calls = _
  rw [h1, h2]
  have : (IHState.initIH.callback_fails ++ fails) = fails := by simp [IHState.initIH]
  rw [this]
  have : (IHState.initIH.callback_calls ++ List.replicate fails.length 0)
      = List.replicate fails.length 0 := by simp [IHState.initIH]
  rw [this]
  exact runCallbacks_replicate fails

theorem trigger_twice_witness :
    1 ≤ 2 ∧
    (triggerN (IHState.initIH.registerAll [false, true, false]) 0 2).callback_calls
      = List.replicate ([false, true, false] : List Bool).length 1 :=
  ⟨by decide, trigger_twice_invokes_callbacks_once [false, true, false] 0 2 (by decide)⟩

lemma pushBounded_length {α : Type} (m : ℕ) (xs : List α) (x : α) :
    (pushBounded m xs x).length = min (xs.length + 1) m := by
  simp only [pushBounded, List.length_append, List.length_singleton]
  split <;> simp <;> omega

lemma update_threshold_voice_frames (s : IHState) :
    (s.update_dynamic_threshold).voice_frames = s.voice_frames := by
  unfold IHState.update_dynamic_threshold
  split <;> simp

lemma update_threshold_is_voice_active (s : IHState) :
    (s.update_dynamic_threshold).is_voice_active = s.is_voice_active := by
  unfold IHState.update_dynamic_threshold
  split <;> simp

lemma process_frame_early (s : IHState) (f : FrameInput)
    (h : s.voice_frames.length + 1 ≤ 10) :
    (s.process_audio_frame f).1 = false ∧
    (s.process_audio_frame f).2.is_voice_active = s.is_voice_active ∧
    (s.process_audio_frame f).2.voice_frames.length ≤ s.voice_frames.length + 1 := by
  rcases f with ⟨level, vad, time⟩
  have hnot : ¬ 10 < min (s.voice_frames.length + 1) 100 := by omega
  cases vad with
  | none =>
      refine ⟨rfl, ?_, ?_⟩ <;>
        simp [IHState.process_audio_frame, update_threshold_voice_frames,
          update_threshold_is_voice_active, apply_ite IHState.is_voice_active,
          apply_ite IHState.voice_frames]
  | some v =>
      refine ⟨?_, ?_, ?_⟩ <;>
        simp [IHState.process_audio_frame, update_threshold_voice_frames,
          update_threshold_is_voice_active, pushBounded_length, hnot,
          apply_ite IHState.is_voice_active, apply_ite IHState.voice_frames]

lemma runFrames_early (frames : List FrameInput) : ∀ s : IHState,
    s.is_voice_active = false →
    s.voice_frames.length + frames.length ≤ 10 →
    (runFrames s frames).2 = List.replicate frames.length false ∧
    (runFrames s frames).1.is_voice_active = false ∧
    (runFrames s frames).1.voice_frames.length ≤ s.voice_frames.length + frames.length := by
  induction frames with
  | nil => intro s h1 _; exact ⟨rfl, h1, by simp [runFrames]⟩
  | cons f rest ih =>
      intro s h1 h2
      simp only [List.length_cons] at h2
      obtain ⟨e1, e2, e3⟩ := process_frame_early s f (by omega)
      obtain ⟨g1, g2, g3⟩ := ih (s.process_audio_frame f).2 (by rw [e2]; exact h1)
        (by omega)
      refine ⟨?_, ?_, ?_⟩
      · simp only [runFrames]
        rw [g1, e1, List.length_cons, List.replicate_succ]
      · simp only [runFrames]
        exact g2
      · simp only [runFrames, List.length_cons]
        omega

/-- C10: on a freshly constructed `InterruptionHandler`, each of the first 10
calls to `process_audio_frame` returns `False` and leaves `is_voice_active`
false, whatever the audio frames are — the voice ratio is computed only once
more than 10 frame verdicts have accumulated, so a speech-start signal cannot
fire before the 11th processed frame. -/
theorem vad_first_ten_frames_no_fire (frames : List FrameInput)
    (h : frames.length ≤ 10) :
    (runFrames IHState.initIH frames).2 = List.replicate frames.length false ∧
    (runFrames IHState.initIH frames).1.is_voice_active = false := by
  obtain ⟨g1, g2, _⟩ := runFrames_early frames IHState.initIH rfl
    (by simpa [IHState.initIH] using h)
  exact ⟨g1, g2⟩

theorem vad_first_ten_witness :
    tenFrames.length ≤ 10 ∧
    ((runFrames IHState.initIH tenFrames).2 = List.replicate tenFrames.length false ∧
     (runFrames IHState.initIH tenFrames).1.is_voice_active = false) :=
  ⟨by decide, vad_first_ten_frames_no_fire tenFrames (by decide)⟩

/-- C2 counterexample: with the bound taken at its word — total written
volume between reads *at most* the capacity — the property fails: writing
exactly `capacity` samples into a fresh buffer makes `write_pos` wrap onto
`read_pos`, the full buffer is indistinguishable from an empty one, and the
following read returns nothing instead of the four written samples. -/
theorem wraparound_le_counterexample :
    safeRunLe 4 (RingBuffer.mk0 4).contents [BufOp.write [1, 2, 3, 4], BufOp.read 4] = true ∧
    (runOps (RingBuffer.mk0 4) [BufOp.write [1, 2, 3, 4], BufOp.read 4]).2 = [] ∧
    (runQueue (RingBuffer.mk0 4).contents [BufOp.write [1, 2, 3, 4], BufOp.read 4]).2
      = [1, 2, 3, 4] ∧
    ([] : List ℤ) ≠ [1, 2, 3, 4] := by
  decide

/-- C2 (amended): for every sequence of writes and reads whose pending volume
stays *strictly below* the capacity at every write, the ring buffer and an
ideal FIFO queue return exactly the same samples in the same order — in
particular every wraparound of the write/read positions is handled
correctly. -/
theorem wraparound_fifo (size : ℕ) (hs : 0 < size) (ops : List BufOp)
    (hsafe : safeRunLt size [] ops = true) :
    (runOps (RingBuffer.mk0 size) ops).2 = (runQueue [] ops).2 := by
  have h := runOps_sim ops (RingBuffer.mk0 size) (RingBuffer.mk0_WF size hs)
    (by rw [RingBuffer.mk0_contents]; exact hsafe)
  rw [h.1, RingBuffer.mk0_contents]

theorem wraparound_fifo_witness :
    0 < 4 ∧
    safeRunLt 4 [] [BufOp.write [1, 2, 3], BufOp.read 2, BufOp.write [4, 5], BufOp.read 3]
      = true ∧
    (runOps (RingBuffer.mk0 4)
        [BufOp.write [1, 2, 3], BufOp.read 2, BufOp.write [4, 5], BufOp.read 3]).2
      = (runQueue [] [BufOp.write [1, 2, 3], BufOp.read 2, BufOp.write [4, 5], BufOp.read 3]).2 :=
  ⟨by decide, by decide, wraparound_fifo 4 (by decide) _ (by decide)⟩

/-- C3: writing into a buffer whose free space is smaller than the input
returns a count strictly below the requested length, and none of the samples
written earlier and not yet read — the circular region of `available_read`
samples starting at `read_pos` — is overwritten or otherwise changed by the
write. -/
theorem overflow_write_short_and_preserves (rb : RingBuffer) (xs : List ℤ)
    (h : rb.WF) (hover : rb.free_space < xs.length) :
    (rb.write xs).1 < xs.length ∧
    circSlice (rb.write xs).2.data rb.read_pos rb.available_read rb.size
      = circSlice rb.data rb.read_pos rb.available_read rb.size := by
  have hwf := h
  obtain ⟨hs, hw, hr, hd⟩ := h
  have hav := rb.available_read_lt_size hwf
  have hclen := rb.contents_length hwf
  have hfs := rb.free_space_eq hwf
  have hfs1 : 1 ≤ rb.free_space := by omega
  have hwl : min xs.length rb.free_space = rb.free_space :=
    Nat.min_eq_right (le_of_lt hover)
  have hwrite : rb.write xs
      = (rb.free_space, { rb with data := rb.writeData (xs.take rb.free_space), write_pos := (rb.write_pos + rb.free_space) % rb.size }) := by
    simp only [RingBuffer.write]
    rw [hwl, if_neg (by omega)]
  rw [hwrite]
  refine ⟨hover, ?_⟩
  exact rb.circSlice_writeData_old (xs.take rb.free_space) hwf (by simp; omega)

theorem overflow_witness :
    rbEx.WF ∧ rbEx.free_space < ([7, 8, 9] : List ℤ).length ∧
    ((rbEx.write [7, 8, 9]).1 < ([7, 8, 9] : List ℤ).length ∧
     circSlice (rbEx.write [7, 8, 9]).2.data rbEx.read_pos rbEx.available_read rbEx.size
       = circSlice rbEx.data rbEx.read_pos rbEx.available_read rbEx.size) :=
  ⟨by decide, by decide, overflow_write_short_and_preserves rbEx [7, 8, 9] (by decide) (by decide)⟩

lemma foldl_min_le (xs : List ℚ) : ∀ x : ℚ, ∀ y ∈ x :: xs, xs.foldl min x ≤ y := by
  induction xs with
  | nil =>
      intro x y hy
      simp at hy
      simp [hy]
  | cons a xs ih =>
      intro x y hy
      have hhead : List.foldl min (min x a) xs ≤ min x a := ih (min x a) _ (by simp)
      have hstep : List.foldl min x (a :: xs) = List.foldl min (min x a) xs := rfl
      rcases List.mem_cons.mp hy with rfl | hy2
      · rw [hstep]
        exact le_trans hhead (min_le_left _ _)
      · rcases List.mem_cons.mp hy2 with rfl | hy3
        · rw [hstep]
          exact le_trans hhead (min_le_right _ _)
        · rw [hstep]
          exact ih (min x a) y (List.mem_cons_of_mem _ hy3)

lemma foldl_min_mem (xs : List ℚ) : ∀ x : ℚ, xs.foldl min x ∈ x :: xs := by
  induction xs with
  | nil => intro x; simp
  | cons a xs ih =>
      intro x
      have hstep : List.foldl min x (a :: xs) = List.foldl min (min x a) xs := rfl
      rcases List.mem_cons.mp (ih (min x a)) with h | h
      · rcases min_choice x a with hm | hm
        · rw [hstep, h, hm]
          simp
        · rw [hstep, h, hm]
          simp
      · rw [hstep]
        exact List.mem_cons_of_mem _ (List.mem_cons_of_mem _ h)

lemma foldl_max_le (xs : List ℚ) : ∀ x : ℚ, ∀ y ∈ x :: xs, y ≤ xs.foldl max x := by
  induction xs with
  | nil =>
      intro x y hy
      simp at hy
      simp [hy]
  | cons a xs ih =>
      intro x y hy
      have hhead : max x a ≤ List.foldl max (max x a) xs := ih (max x a) _ (by simp)
      have hstep : List.foldl max x (a :: xs) = List.foldl max (max x a) xs := rfl
      rcases List.mem_cons.mp hy with rfl | hy2
      · rw [hstep]
        exact le_trans (le_max_left _ _) hhead
      · rcases List.mem_cons.mp hy2 with rfl | hy3
        · rw [hstep]
          exact le_trans (le_max_right _ _) hhead
        · rw [hstep]
          exact ih (max x a) y (List.mem_cons_of_mem _ hy3)

lemma foldl_max_mem (xs : List ℚ) : ∀ x : ℚ, xs.foldl max x ∈ x :: xs := by
  induction xs with
  | nil => intro x; simp
  | cons a xs ih =>
      intro x
      have hstep : List.foldl max x (a :: xs) = List.foldl max (max x a) xs := rfl
      rcases List.mem_cons.mp (ih (max x a)) with h | h
      · rcases max_choice x a with hm | hm
        · rw [hstep, h, hm]
          simp
        · rw [hstep, h, hm]
          simp
      · rw [hstep]
        exact List.mem_cons_of_mem _ (List.mem_cons_of_mem _ h)

/-- For `0 ≤ p < 1` the clamp in `percentile` is the specification's
`min(floor(p*count), count-1)` — and in fact never fires. -/
lemma percentileIdx_eq (p : ℚ) (count : ℕ) (hp0 : 0 ≤ p) (hp1 : p < 1)
    (hc : 0 < count) :
    percentileIdx p count = min (⌊p * (count : ℚ)⌋₊) (count - 1) := by
  have hcq : (0 : ℚ) < count := by exact_mod_cast hc
  have hlt : ⌊p * (count : ℚ)⌋₊ < count := by
    rw [Nat.floor_lt (by positivity)]
    calc p * (count : ℚ) < 1 * count := mul_lt_mul_of_pos_right hp1 hcq
      _ = count := one_mul _
  unfold percentileIdx
  rw [if_neg (by omega)]
  omega

/-- C5: for every non-empty latency list the summary satisfies
`avg = sum/count`, `percentile(p) = sorted[min(floor(p*count), count-1)]`
for p ∈ {0.5, 0.95, 0.99}, and min/max are the extrema; in particular
`[100, 110, 120, 130, 140]` yields avg 120, min 100, max 140, p50 120. -/
theorem latency_stats_spec (l : List ℚ) (hl : l ≠ []) :
    (calculate_latency_stats l).avg = l.sum / l.length ∧
    (calculate_latency_stats l).samples = l.length ∧
    (calculate_latency_stats l).p50
      = (l.mergeSort (fun a b => decide (a ≤ b))).getD
          (min (⌊(1/2 : ℚ) * (l.length : ℚ)⌋₊) (l.length - 1)) 0 ∧
    (calculate_latency_stats l).p95
      = (l.mergeSort (fun a b => decide (a ≤ b))).getD
          (min (⌊(95/100 : ℚ) * (l.length : ℚ)⌋₊) (l.length - 1)) 0 ∧
    (calculate_latency_stats l).p99
      = (l.mergeSort (fun a b => decide (a ≤ b))).getD
          (min (⌊(99/100 : ℚ) * (l.length : ℚ)⌋₊) (l.length - 1)) 0 ∧
    (∀ x ∈ l, (calculate_latency_stats l).min ≤ x) ∧
    (calculate_latency_stats l).min ∈ l ∧
    (∀ x ∈ l, x ≤ (calculate_latency_stats l).max) ∧
    (calculate_latency_stats l).max ∈ l ∧
    calculate_latency_stats [100, 110, 120, 130, 140] = ⟨100, 140, 120, 120, 140, 140, 5⟩ := by
  have hconc : calculate_latency_stats [100, 110, 120, 130, 140]
      = ⟨100, 140, 120, 120, 140, 140, 5⟩ := by
    have hs : ([100, 110, 120, 130, 140] : List ℚ).mergeSort (fun a b => decide (a ≤ b))
        = [100, 110, 120, 130, 140] := by
      apply List.mergeSort_eq_self
      norm_num [List.sorted_cons]
    simp [calculate_latency_stats, percentileVal, percentileIdx, pyMin, pyMax, hs]
    norm_num [min_def, max_def]
    have e50 : ⌊(5 : ℚ) / 2⌋₊ = 2 := by
      rw [Nat.floor_eq_iff (by positivity)]
      norm_num
    have e95 : ⌊(19 : ℚ) / 4⌋₊ = 4 := by
      rw [Nat.floor_eq_iff (by positivity)]
      norm_num
    have e99 : ⌊(99 : ℚ) / 20⌋₊ = 4 := by
      rw [Nat.floor_eq_iff (by positivity)]
      norm_num
    rw [e50, e95, e99]
    norm_num
  rcases l with _ | ⟨x, xs⟩
  · exact absurd rfl hl
  refine ⟨rfl, rfl, ?_, ?_, ?_, ?_, ?_, ?_, ?_, hconc⟩
  · show percentileVal ((x :: xs).mergeSort (fun a b => decide (a ≤ b)))
        (x :: xs).length (1/2) = _
    unfold percentileVal
    rw [percentileIdx_eq _ _ (by norm_num) (by norm_num) (by simp)]
  · show percentileVal ((x :: xs).mergeSort (fun a b => decide (a ≤ b)))
        (x :: xs).length (95/100) = _
    unfold percentileVal
    rw [percentileIdx_eq _ _ (by norm_num) (by norm_num) (by simp)]
  · show percentileVal ((x :: xs).mergeSort (fun a b => decide (a ≤ b)))
        (x :: xs).length (99/100) = _
    unfold percentileVal
    rw [percentileIdx_eq _ _ (by norm_num) (by norm_num) (by simp)]
  · exact foldl_min_le xs x
  · exact foldl_min_mem xs x
  · exact foldl_max_le xs x
  · exact foldl_max_mem xs x

theorem latency_stats_witness :
    ([100, 110, 120, 130, 140] : List ℚ) ≠ [] ∧
    calculate_latency_stats [100, 110, 120, 130, 140] = ⟨100, 140, 120, 120, 140, 140, 5⟩ :=
  ⟨by simp, (latency_stats_spec [100, 110, 120, 130, 140]
      (by simp)).2.2.2.2.2.2.2.2.2⟩

lemma levelsWin_length (e : ℕ → ℚ) (u : ℕ) : (levelsWin e u).length = min u 50 := by
  simp [levelsWin]
  omega

lemma levelsWin_getElem (e : ℕ → ℚ) (u i : ℕ) (hi : i < (levelsWin e u).length) :
    (levelsWin e u)[i] = e (winStart u + i) := by
  have hlen := levelsWin_length e u
  unfold levelsWin
  simp only [List.getElem_drop, List.getElem_map, List.getElem_range]
  congr 1
  unfold winStart
  omega

lemma levelsWin_sorted (e : ℕ → ℚ) (hmono : Monotone e) (u : ℕ) :
    List.Sorted (· ≤ ·) (levelsWin e u) := by
  rw [List.Sorted, List.pairwise_iff_getElem]
  intro i j hi hj hij
  rw [levelsWin_getElem e u i hi, levelsWin_getElem e u j hj]
  exact hmono (by omega)

lemma levelsWin_take (e : ℕ → ℚ) (u q : ℕ) (hq : q ≤ min u 50) :
    (levelsWin e u).take q = List.ofFn (fun i : Fin q => e (winStart u + i)) := by
  apply List.ext_getElem
  · simp [levelsWin_length]
    omega
  · intro n h1 h2
    rw [List.getElem_take, List.getElem_ofFn]
    exact levelsWin_getElem e u n (by simp [levelsWin_length] at h1 ⊢; omega)

lemma levelsWin_push (e : ℕ → ℚ) (t : ℕ) :
    pushBounded 50 (levelsWin e t) (e t) = levelsWin e (t + 1) := by
  have hlen := levelsWin_length e t
  unfold pushBounded
  by_cases h : t < 50
  · rw [if_neg (by simp [hlen]; omega)]
    unfold levelsWin
    rw [show t - 50 = 0 by omega, show t + 1 - 50 = 0 by omega]
    simp [List.range_succ]
  · rw [if_pos (by simp [hlen]; omega)]
    rw [show (levelsWin e t ++ [e t]).length - 50 = 1 by simp [hlen]; omega]
    rw [List.drop_append_eq_append_drop]
    rw [show 1 - (levelsWin e t).length = 0 by omega, List.drop_zero]
    unfold levelsWin
    rw [List.drop_drop, List.range_succ, List.map_append, List.drop_append_eq_append_drop]
    rw [show t + 1 - 50 - ((List.range t).map e).length = 0 by simp, List.drop_zero]
    congr 2
    omega

/-- The mean of the first `k` values of a non-decreasing sequence does not
exceed the mean of the first `m ≥ k` values. -/
lemma prefix_mean_le (f : ℕ → ℚ) (hf : Monotone f) (k m : ℕ) (hk : 0 < k)
    (hkm : k ≤ m) :
    (∑ i ∈ Finset.range k, f i) / k ≤ (∑ i ∈ Finset.range m, f i) / m := by
  obtain ⟨d, rfl⟩ : ∃ d, m = k + d := ⟨m - k, by omega⟩
  have hkq : (0 : ℚ) < k := by exact_mod_cast hk
  have hmq : (0 : ℚ) < (k : ℚ) + d := by
    have : (0 : ℚ) ≤ (d : ℚ) := by positivity
    linarith
  rw [Finset.sum_range_add, show ((k + d : ℕ) : ℚ) = (k : ℚ) + d by push_cast; ring]
  rw [div_le_div_iff₀ hkq hmq]
  have hterm : ∀ i ∈ Finset.range d,
      (∑ j ∈ Finset.range k, f j) ≤ (k : ℚ) * f (k + i) := by
    intro i _
    calc ∑ j ∈ Finset.range k, f j
        ≤ ∑ _j ∈ Finset.range k, f (k + i) :=
          Finset.sum_le_sum (fun j hj => hf (by simp at hj; omega))
      _ = (k : ℚ) * f (k + i) := by
          rw [Finset.sum_const, Finset.card_range, nsmul_eq_mul]
  have hsum : (d : ℚ) * ∑ j ∈ Finset.range k, f j
      ≤ (k : ℚ) * ∑ i ∈ Finset.range d, f (k + i) := by
    calc (d : ℚ) * ∑ j ∈ Finset.range k, f j
        = ∑ _i ∈ Finset.range d, ∑ j ∈ Finset.range k, f j := by
          rw [Finset.sum_const, Finset.card_range, nsmul_eq_mul]
      _ ≤ ∑ i ∈ Finset.range d, (k : ℚ) * f (k + i) := Finset.sum_le_sum hterm
      _ = (k : ℚ) * ∑ i ∈ Finset.range d, f (k + i) := (Finset.mul_sum _ _ _).symm
  nlinarith [hsum]

/-- Sliding a window of non-decreasing values forward and enlarging it can
only raise its mean. -/
lemma window_mean_mono (e : ℕ → ℚ) (hmono : Monotone e) (a1 a2 q1 q2 : ℕ)
    (ha : a1 ≤ a2) (hq : q1 ≤ q2) (hq1 : 0 < q1) :
    (∑ i ∈ Finset.range q1, e (a1 + i)) / q1
      ≤ (∑ i ∈ Finset.range q2, e (a2 + i)) / q2 := by
  have hq2 : (0 : ℚ) < q2 := by exact_mod_cast (by omega : 0 < q2)
  calc (∑ i ∈ Finset.range q1, e (a1 + i)) / q1
      ≤ (∑ i ∈ Finset.range q2, e (a1 + i)) / q2 :=
        prefix_mean_le (fun i => e (a1 + i)) (fun i j hij => hmono (by omega)) q1 q2 hq1 hq
    _ ≤ (∑ i ∈ Finset.range q2, e (a2 + i)) / q2 := by
        apply (div_le_div_iff_of_pos_right hq2).mpr
        exact Finset.sum_le_sum (fun i _ => hmono (by omega))

lemma nfAt_le (e : ℕ → ℚ) (hmono : Monotone e) (u1 u2 : ℕ) (h20 : 20 ≤ u1)
    (h12 : u1 ≤ u2) : nfAt e u1 ≤ nfAt e u2 := by
  unfold nfAt
  exact window_mean_mono e hmono (winStart u1) (winStart u2) (quartileLen u1)
    (quartileLen u2) (by unfold winStart; omega) (by unfold quartileLen; omega)
    (by unfold quartileLen; omega)

lemma thrAt_mono_step (e : ℕ → ℚ) (hmono : Monotone e) (t : ℕ) :
    thrAt e t ≤ thrAt e (t + 1) := by
  unfold thrAt
  by_cases h1 : t + 1 < 20
  · rw [if_pos (by omega), if_pos h1]
  · rw [if_neg h1]
    by_cases h2 : t < 20
    · rw [if_pos h2]
      exact le_trans (by norm_num) (le_max_right _ _)
    · rw [if_neg h2]
      refine max_le_max ?_ le_rfl
      refine mul_le_mul_of_nonneg_right ?_ (by norm_num)
      exact nfAt_le e hmono (20 * (t / 20)) (20 * ((t + 1) / 20)) (by omega) (by omega)

lemma update_threshold_keeps (s : IHState) :
    (s.update_dynamic_threshold).audio_levels = s.audio_levels ∧
    (s.update_dynamic_threshold).update_threshold_counter = s.update_threshold_counter := by
  unfold IHState.update_dynamic_threshold
  split <;> simp

lemma process_frame_levels (s : IHState) (f : FrameInput) :
    (s.process_audio_frame f).2.audio_levels = pushBounded 50 s.audio_levels f.level := by
  rcases f with ⟨level, vad, time⟩
  cases vad <;>
    simp [IHState.process_audio_frame, (update_threshold_keeps _).1,
      apply_ite IHState.audio_levels, apply_ite (Prod.snd : Bool × IHState → IHState)]

lemma process_frame_counter (s : IHState) (f : FrameInput) :
    (s.process_audio_frame f).2.update_threshold_counter
      = s.update_threshold_counter + 1 := by
  rcases f with ⟨level, vad, time⟩
  cases vad <;>
    simp [IHState.process_audio_frame, (update_threshold_keeps _).2,
      apply_ite IHState.update_threshold_counter, apply_ite (Prod.snd : Bool × IHState → IHState)]

lemma process_frame_threshold_skip (s : IHState) (f : FrameInput)
    (h : (s.update_threshold_counter + 1) % 20 ≠ 0) :
    (s.process_audio_frame f).2.dynamic_threshold = s.dynamic_threshold := by
  rcases f with ⟨level, vad, time⟩
  cases vad <;>
    simp [IHState.process_audio_frame, h, apply_ite IHState.dynamic_threshold, apply_ite (Prod.snd : Bool × IHState → IHState)]

lemma process_frame_threshold_update (s : IHState) (f : FrameInput)
    (h : (s.update_threshold_counter + 1) % 20 = 0) :
    (s.process_audio_frame f).2.dynamic_threshold
      = (({ s with audio_levels := pushBounded 50 s.audio_levels f.level, update_threshold_counter := s.update_threshold_counter + 1 } : IHState).update_dynamic_threshold).dynamic_threshold := by
  rcases f with ⟨level, vad, time⟩
  cases vad <;>
    simp [IHState.process_audio_frame, h, apply_ite IHState.dynamic_threshold, apply_ite (Prod.snd : Bool × IHState → IHState)]

/-- The refreshed threshold over a sorted window, in closed form. -/
lemma update_threshold_formula (e : ℕ → ℚ) (hmono : Monotone e) (u : ℕ)
    (hu : 20 ≤ u) (s : IHState) (hlev : s.audio_levels = levelsWin e u) :
    (s.update_dynamic_threshold).dynamic_threshold = max (nfAt e u * 3) (1/100) := by
  have hsorted := List.mergeSort_eq_self (levelsWin_sorted e hmono u)
  unfold IHState.update_dynamic_threshold
  rw [hlev, if_neg (by rw [levelsWin_length]; omega)]
  simp only [hsorted, levelsWin_length]
  rw [levelsWin_take e u (min u 50 / 4) (by omega)]
  unfold listMean nfAt quartileLen
  simp only [List.sum_ofFn, List.length_ofFn]
  rw [Fin.sum_univ_eq_sum_range (fun i => e (winStart u + i)) ((u ⊓ 50) / 4)]

/-- The closed form of the threshold trajectory on a monotone energy
stream. -/
lemma procN_state (e : ℕ → ℚ) (v : ℕ → Option Bool) (τ : ℕ → ℚ)
    (hmono : Monotone e) : ∀ t : ℕ,
    (procN e v τ t).audio_levels = levelsWin e t ∧
    (procN e v τ t).update_threshold_counter = t ∧
    (procN e v τ t).dynamic_threshold = thrAt e t := by
  intro t
  induction t with
  | zero =>
      refine ⟨?_, rfl, ?_⟩
      · simp [procN, IHState.initIH, levelsWin]
      · simp [procN, IHState.initIH, thrAt]
  | succ t ih =>
      obtain ⟨h1, h2, h3⟩ := ih
      have hlev : (procN e v τ (t + 1)).audio_levels = levelsWin e (t + 1) := by
        show ((procN e v τ t).process_audio_frame _).2.audio_levels = _
        rw [process_frame_levels, h1, levelsWin_push]
      have hcnt : (procN e v τ (t + 1)).update_threshold_counter = t + 1 := by
        show ((procN e v τ t).process_audio_frame _).2.update_threshold_counter = _
        rw [process_frame_counter, h2]
      refine ⟨hlev, hcnt, ?_⟩
      show ((procN e v τ t).process_audio_frame _).2.dynamic_threshold = _
      by_cases hrec : (t + 1) % 20 = 0
      · have h20 : 20 ≤ t + 1 := by omega
        rw [process_frame_threshold_update _ _ (by rw [h2]; exact hrec)]
        rw [update_threshold_formula e hmono (t + 1) h20 _ (by rw [h1, levelsWin_push])]
        unfold thrAt
        rw [if_neg (by omega), show 20 * ((t + 1) / 20) = t + 1 by omega]
      · rw [process_frame_threshold_skip _ _ (by rw [h2]; exact hrec), h3]
        unfold thrAt
        by_cases ht : t + 1 < 20
        · rw [if_pos (by omega), if_pos ht]
        · rw [if_neg (by omega), if_neg ht, show (t + 1) / 20 = t / 20 by omega]

/-- C6: the dynamic VAD threshold is recomputed exactly every 20 processed
frames as `max(3 × mean of the lowest quartile of the recent energy window,
0.01)` and left untouched on all other frames; and along any frame stream
with non-decreasing energies the threshold trajectory is non-decreasing — in
particular successive recomputed values are non-decreasing. -/
theorem vad_threshold_recompute_monotone :
    (∀ (s : IHState) (f : FrameInput),
      (((s.update_threshold_counter + 1) % 20 ≠ 0 →
          (s.process_audio_frame f).2.dynamic_threshold = s.dynamic_threshold) ∧
       ((s.update_threshold_counter + 1) % 20 = 0 →
          10 ≤ (pushBounded 50 s.audio_levels f.level).length →
          (s.process_audio_frame f).2.dynamic_threshold
            = max (listMean
                (((pushBounded 50 s.audio_levels f.level).mergeSort
                    (fun a b => decide (a ≤ b))).take
                  (((pushBounded 50 s.audio_levels f.level).mergeSort
                      (fun a b => decide (a ≤ b))).length / 4)) * 3)
                (1/100)))) ∧
    (∀ (e : ℕ → ℚ) (v : ℕ → Option Bool) (τ : ℕ → ℚ), Monotone e → ∀ t : ℕ,
      (procN e v τ t).dynamic_threshold ≤ (procN e v τ (t + 1)).dynamic_threshold) := by
  constructor
  · intro s f
    refine ⟨process_frame_threshold_skip s f, fun h hlen => ?_⟩
    rw [process_frame_threshold_update s f h]
    unfold IHState.update_dynamic_threshold
    have hc : ¬ (({ s with audio_levels := pushBounded 50 s.audio_levels f.level, update_threshold_counter := s.update_threshold_counter + 1 } : IHState).audio_levels.length < 10) := by
      show ¬ (pushBounded 50 s.audio_levels f.level).length < 10
      omega
    rw [if_neg hc]
  · intro e v τ hmono t
    rw [(procN_state e v τ hmono t).2.2, (procN_state e v τ hmono (t + 1)).2.2]
    exact thrAt_mono_step e hmono t

theorem vad_threshold_witness :
    ((IHState.initIH.update_threshold_counter + 1) % 20 ≠ 0 ∧
     (IHState.initIH.process_audio_frame ⟨1, none, 0⟩).2.dynamic_threshold
       = IHState.initIH.dynamic_threshold) ∧
    (Monotone (fun n : ℕ => (n : ℚ)) ∧
     (procN (fun n => (n : ℚ)) (fun _ => none) (fun _ => 0) 25).dynamic_threshold
       ≤ (procN (fun n => (n : ℚ)) (fun _ => none) (fun _ => 0) 26).dynamic_threshold) :=
  ⟨⟨by decide,
    (vad_threshold_recompute_monotone.1 IHState.initIH ⟨1, none, 0⟩).1 (by decide)⟩,
   ⟨Nat.mono_cast, vad_threshold_recompute_monotone.2 _ _ _ Nat.mono_cast 25⟩⟩

end HelloWorld
